import Mathlib

/-!
# Verification of AsyncHarmon (`asyncHarmon.py`)

Shallow embedding of the batch execution engine `_parralelizeCallables`
and the operation catalog of `AsyncHarmonicWrapper`, together with proofs
of the specified properties.

Python callables that may raise are modelled as functions into
`Except ε α`; a Python method call that returns normally is `.ok`, one
that raises is `.error`.  The thread pool only affects scheduling, never
values, so the value-level semantics of the engine is modelled as a pure
function, and timing/scheduling is modelled separately by an explicit
discrete-time layer (completion times in abstract ticks, one tick =
one 200 ms sleep).
-/

namespace AsyncHarmon

/-! ## Value-level semantics of the engine (lines 23-45) -/

/-- `results = [futureObj.result() for futureObj in futureObjs]`
(line 44): resolve the futures left to right; the first future whose
`result()` raises makes the whole comprehension raise that exception,
otherwise the list of all produced values is returned. -/
def resolveAll {ε α : Type} : List (Except ε α) → Except ε (List α)
  | [] => .ok []
  | .error e :: _ => .error e
  | .ok v :: rest => (resolveAll rest).map (fun vs => v :: vs)

/-- The submission loop (lines 25-28): for `i in range(len(listOfCallables))`,
submit `listOfCallables[i]` applied to `listOfParamTuples[i]`.  The future
created for unit `i` will resolve to the outcome of that call.  The source
pairs the two lists by index, so (for the equal-length batches every caller
constructs) the outcomes are the index-wise applications. -/
def submitOutcomes {π ε α : Type} (listOfCallables : List (π → Except ε α))
    (listOfParamTuples : List π) : List (Except ε α) :=
  (listOfCallables.zip listOfParamTuples).map (fun fp => fp.1 fp.2)

/-- Value-level semantics of `_parralelizeCallables` (lines 23-45): submit
every (callable, param-tuple) pair to the pool, then resolve the futures
in submission order.  `self.pool` affects only scheduling, never the
produced values, so it does not appear here; the scheduling layer is
modelled below by `timedWait`/`collectResults` and `assignUnits`. -/
def parralelizeCallables {π ε α : Type} (listOfCallables : List (π → Except ε α))
    (listOfParamTuples : List π) : Except ε (List α) :=
  resolveAll (submitOutcomes listOfCallables listOfParamTuples)

/-! ## Timed model of the wait-and-collect phase (lines 30-45)

Time is counted in abstract ticks; one tick is one 200 ms `time.sleep(0.2)`.
Each future carries the tick at which its unit reaches a terminal state
(success or failure).  `future.done()` at time `t` is `fin ≤ t`;
`future.result()` called at time `t` blocks until `max t fin` and then
returns the value or raises the exception. -/

/-- One pass of the `for future in futureObjs` scan (lines 35-39), counting
sleeps: walk the done-flags in order; at the first future that is not done,
sleep once and `break`; if all are done, no sleep happens. -/
def forScanSleeps : List Bool → Nat
  | [] => 0
  | d :: rest => if d then forScanSleeps rest else 1

/-- The `while not fullyResolved` loop (lines 33-41), fuelled so that a loop
that spins forever is representable as `none`.  `done scans` gives the
done-flag of every future at the time of scan number `scans`.  The body
performs one `for` scan and then executes `fullyResolved = True`
(line 41) unconditionally — the assignment sits outside the `for` loop. -/
def waitLoopFuel (done : Nat → List Bool) : Nat → Bool → Nat → Nat → Option (Nat × Nat)
  | 0, _, _, _ => none
  | _ + 1, true, scans, sleeps => some (scans, sleeps)
  | fuel + 1, false, scans, sleeps =>
      waitLoopFuel done fuel true (scans + 1) (sleeps + forScanSleeps (done scans))

/-- Timed version of one `for` scan: starting at tick `t`, walk the
completion ticks in order; the first future with `fin > t` (not done)
causes one sleep — time advances to `t + 1` — and a `break`. -/
def scanStep : List Nat → Nat → Nat
  | [], t => t
  | f :: rest, t => if f ≤ t then scanStep rest t else t + 1

/-- Timed `while not fullyResolved` loop: returns the tick at which the
engine leaves the wait phase, `none` if the fuel runs out. -/
def timedWait (fin : List Nat) : Nat → Bool → Nat → Option Nat
  | 0, _, _ => none
  | _ + 1, true, t => some t
  | fuel + 1, false, t => timedWait fin fuel true (scanStep fin t)

/-- Timed `[futureObj.result() for futureObj in futureObjs]` (line 44):
resolve the futures in order starting at tick `t`; `result()` on a future
with completion tick `f` blocks until `max t f`, then yields its value or
raises.  Returns the tick at which the comprehension returns or raises,
and the value semantics of the comprehension. -/
def collectResults {ε α : Type} : List (Except ε α × Nat) → Nat → Nat × Except ε (List α)
  | [], t => (t, .ok [])
  | (.error e, f) :: _, t => (max t f, .error e)
  | (.ok v, f) :: rest, t =>
      ((collectResults rest (max t f)).1,
       (collectResults rest (max t f)).2.map (fun vs => v :: vs))

/-- Full timed run of lines 30-45 of `_parralelizeCallables` on futures
with given outcomes and completion ticks. -/
def engineTimed {ε α : Type} (units : List (Except ε α × Nat)) (fuel : Nat) :
    Option (Nat × Except ε (List α)) :=
  (timedWait (units.map Prod.snd) fuel false 0).map (fun t => collectResults units t)

/-- The tick at which the last unit of the batch reaches a terminal state. -/
def allTerminalTime {ε α : Type} (units : List (Except ε α × Nat)) : Nat :=
  (units.map Prod.snd).foldr max 0

/-! ## The operation catalog

The wrapped remote client (`harmonic.api.HarmonicClient`) is an external
collaborator; the engine treats each of its methods as an opaque callable.
It is modelled as a record of abstract operations, each of which may
return a value or raise. Only the methods the claims mention are needed. -/

structure HarmonicClient (ε Url Comp Pers Urn SArg SRes : Type) where
  enrich_company : Url → Except ε Comp
  enrich_person : Url → Except ε Pers
  search : SArg → Except ε SRes
  get_company_by_id : Urn → Except ε Comp

/-- `AsyncHarmonicWrapper` (lines 13-19): holds the configured worker count
and the pre-constructed client.  The pool itself only schedules; it is
modelled by `assignUnits` below. -/
structure AsyncHarmonicWrapper (ε Url Comp Pers Urn SArg SRes : Type) where
  numWorkers : Nat
  rawClient : HarmonicClient ε Url Comp Pers Urn SArg SRes

/-- The `numWorkers=10` default of `__init__` (line 16). -/
def defaultNumWorkers : Nat := 10

namespace AsyncHarmonicWrapper

variable {ε Url Comp Pers Urn SArg SRes : Type}

/-- `enrich_companies` (lines 49-61): one argument tuple `(urlArg,)` per
input, one copy of `self.rawClient.enrich_company` per input (the append
loop over `range(len(...))`), then the engine. -/
def enrich_companies (self : AsyncHarmonicWrapper ε Url Comp Pers Urn SArg SRes)
    (url_or_enrichment_requests : List Url) : Except ε (List Comp) :=
  let argumentTupleList := url_or_enrichment_requests
  let callableList := (List.range url_or_enrichment_requests.length).map
    (fun _ => self.rawClient.enrich_company)
  parralelizeCallables callableList argumentTupleList

/-- `enrich_company` (lines 64-65). -/
def enrich_company (self : AsyncHarmonicWrapper ε Url Comp Pers Urn SArg SRes)
    (url_or_enrichment_request : Url) : Except ε Comp :=
  self.rawClient.enrich_company url_or_enrichment_request

/-- `enrich_people` (lines 68-79): same shape as `enrich_companies` with
`self.rawClient.enrich_person`. -/
def enrich_people (self : AsyncHarmonicWrapper ε Url Comp Pers Urn SArg SRes)
    (listOfURLS : List Url) : Except ε (List Pers) :=
  let arugmentTupleList := listOfURLS
  let callableList := (List.range listOfURLS.length).map
    (fun _ => self.rawClient.enrich_person)
  parralelizeCallables callableList arugmentTupleList

/-- `enrich_person` (lines 82-83). -/
def enrich_person (self : AsyncHarmonicWrapper ε Url Comp Pers Urn SArg SRes)
    (url : Url) : Except ε Pers :=
  self.rawClient.enrich_person url

/-- `batch_searches` (lines 101-108): one copy of `self.rawClient.search`
per argument tuple, then the engine. -/
def batch_searches (self : AsyncHarmonicWrapper ε Url Comp Pers Urn SArg SRes)
    (listOfArgTuples : List SArg) : Except ε (List SRes) :=
  let callableList := (List.range listOfArgTuples.length).map
    (fun _ => self.rawClient.search)
  parralelizeCallables callableList listOfArgTuples

/-- `search` (lines 111-112); the packed argument tuple is opaque here. -/
def search (self : AsyncHarmonicWrapper ε Url Comp Pers Urn SArg SRes)
    (args : SArg) : Except ε SRes :=
  self.rawClient.search args

/-- `safe_get_company_by_urn` (lines 118-122): `try: return
self.rawClient.get_company_by_id(urn) except: return None`.  A successful
lookup returns its value, a raising lookup is swallowed into `None`;
this Python method itself never raises. -/
def safe_get_company_by_urn (self : AsyncHarmonicWrapper ε Url Comp Pers Urn SArg SRes)
    (urn : Urn) : Option Comp :=
  match self.rawClient.get_company_by_id urn with
  | .ok c => some c
  | .error _ => none

/-- `batch_safe_get_company_by_urn` (lines 125-132): one `(urn,)` tuple per
URN, one copy of `self.safe_get_company_by_urn` per URN, then the engine.
The submitted callable returns normally on every input (the `except`
inside it swallows lookup failures), hence the `.ok` wrapper. -/
def batch_safe_get_company_by_urn (self : AsyncHarmonicWrapper ε Url Comp Pers Urn SArg SRes)
    (listOfURNs : List Urn) : Except ε (List (Option Comp)) :=
  let paramTupleList := listOfURNs
  let callableList := (List.range listOfURNs.length).map
    (fun _ => fun urn => Except.ok (self.safe_get_company_by_urn urn))
  parralelizeCallables callableList paramTupleList

end AsyncHarmonicWrapper

/-! ## Heap-frame model of the engine (for the non-mutation claim)

The Python heap objects reachable from `_parralelizeCallables` are the
caller's two input lists and the local `futureObjs` list; every statement
of the function body is threaded through this frame, so that what the
function leaves unchanged is provable rather than assumed.  The catalog
operations build fresh argument/callable lists from their input (list
comprehensions and `append` on new lists), so the only lists an engine
call can reach are the ones in this frame. -/

structure EngineFrame (π ε α : Type) where
  listOfCallables : List (π → Except ε α)
  listOfParamTuples : List π
  futureObjs : List (Except ε α)

/-- The submission loop (lines 25-28) over the frame: each iteration reads
`listOfCallables[i]` and `listOfParamTuples[i]` from the frame and appends
the new future to `futureObjs`.  An out-of-range index is a Python
`IndexError`, modelled as `none`. -/
def submitLoopFr {π ε α : Type} :
    EngineFrame π ε α → List Nat → Option (EngineFrame π ε α)
  | s, [] => some s
  | s, i :: is =>
      match s.listOfCallables.get? i, s.listOfParamTuples.get? i with
      | some f, some p =>
          submitLoopFr { s with futureObjs := s.futureObjs ++ [f p] } is
      | _, _ => none

/-- Statement-level run of `_parralelizeCallables` over the frame:
`futureObjs = []` (line 25), the submission loop over
`range(len(listOfCallables))` (lines 26-28), then the result comprehension
(line 44).  Returns the final frame together with the result. -/
def parralelizeCallablesFr {π ε α : Type} (listOfCallables : List (π → Except ε α))
    (listOfParamTuples : List π) :
    Option (EngineFrame π ε α × Except ε (List α)) :=
  (submitLoopFr ⟨listOfCallables, listOfParamTuples, []⟩
      (List.range listOfCallables.length)).map
    (fun s1 => (s1, resolveAll s1.futureObjs))

/-- The outcomes gathered by the submission loop at a given index set. -/
def outcomesAt {π ε α : Type} (fs : List (π → Except ε α)) (ps : List π)
    (is : List Nat) : List (Except ε α) :=
  is.filterMap (fun i => match fs.get? i, ps.get? i with
    | some f, some p => some (f p)
    | _, _ => none)

/-! ## Pool scheduling model (for the concurrency-ceiling claim)

Modelled from the spec: `concurrent.futures.ThreadPoolExecutor` is external
to this repository; per the spec the pool "enforces a concurrency ceiling
equal to its configured worker count — units beyond the ceiling queue until
a worker frees up".  Submission order is preserved (line 26-28 submits all
units immediately); each unit, in submission order, starts on the worker
that becomes available earliest.  `avail` holds each worker's next-free
tick; every scheduled unit is an (worker index, start tick, finish tick)
triple. -/

/-- The next-free tick of worker `i` (0 when `i` is out of range). -/
def nthTick : List Nat → Nat → Nat
  | [], _ => 0
  | a :: _, 0 => a
  | _ :: l, i + 1 => nthTick l i

/-- Record that worker `i` is busy until tick `v`. -/
def setTick : List Nat → Nat → Nat → List Nat
  | [], _, _ => []
  | _ :: l, 0, v => v :: l
  | a :: l, i + 1, v => a :: setTick l i v

/-- Index of the first earliest-available worker. -/
def minIdx : List Nat → Nat
  | [] => 0
  | [_] => 0
  | a :: b :: rest =>
      if a ≤ nthTick (b :: rest) (minIdx (b :: rest)) then 0
      else minIdx (b :: rest) + 1

/-- FIFO work-conserving schedule: assign each unit (given by its running
duration) to the earliest-available worker. -/
def assignUnits : List Nat → List Nat → List (Nat × Nat × Nat)
  | _, [] => []
  | avail, d :: ds =>
      let w := minIdx avail
      let s := nthTick avail w
      (w, s, s + d) :: assignUnits (setTick avail w (s + d)) ds

/-- The schedule produced by a pool of `numWorkers` workers, all free at
tick 0, for a batch of units with the given durations. -/
def poolSchedule (numWorkers : Nat) (durations : List Nat) : List (Nat × Nat × Nat) :=
  assignUnits (List.replicate numWorkers 0) durations

/-- Whether a scheduled unit is running at tick `t`. -/
def runningAt (t : Nat) (e : Nat × Nat × Nat) : Bool :=
  decide (e.2.1 ≤ t ∧ t < e.2.2)

/-! ## Concrete instances used by the witnesses -/

/-- A concrete remote client over `Nat` data: enrichment and search always
succeed; company lookup succeeds exactly on even URNs (odd URNs model the
search/lookup datastore inconsistency). -/
def toyClient : HarmonicClient Nat Nat Nat Nat Nat Nat Nat where
  enrich_company := fun u => .ok (u * 2)
  enrich_person := fun u => .ok (u + 1)
  search := fun a => .ok (a * 10)
  get_company_by_id := fun u => if u % 2 = 0 then .ok (u * 100) else .error u

/-- A concrete wrapper around `toyClient` with the default worker count. -/
def toyWrapper : AsyncHarmonicWrapper Nat Nat Nat Nat Nat Nat Nat :=
  ⟨defaultNumWorkers, toyClient⟩

/-- The `double` callable of the spec's worked example, as an engine unit. -/
def doubleCallable : Nat → Except Nat Nat := fun n => .ok (n * 2)

/-- A callable that always raises, for the failure witnesses. -/
def failCallable (e : Nat) : Nat → Except Nat Nat := fun _ => .error e

/-! ## Helper lemmas about the engine's value semantics -/

theorem resolveAll_length_ok {ε α : Type} (outs : List (Except ε α)) (rs : List α)
    (h : resolveAll outs = .ok rs) : rs.length = outs.length := by
  induction outs generalizing rs with
  | nil => simp [resolveAll] at h; simp [← h]
  | cons o rest ih =>
      match o with
      | .error e => simp [resolveAll] at h
      | .ok v =>
          simp only [resolveAll, Except.map] at h
          match hrest : resolveAll rest with
          | .error e => rw [hrest] at h; simp at h
          | .ok vs =>
              rw [hrest] at h
              simp at h
              subst h
              simp [ih vs hrest]

theorem resolveAll_ok_of_all_ok {ε α : Type} (outs : List (Except ε α))
    (h : ∀ o ∈ outs, o.isOk) :
    ∃ rs, resolveAll outs = .ok rs ∧ rs.length = outs.length ∧
      ∀ i (hi : i < outs.length) (hr : i < rs.length),
        outs.get ⟨i, hi⟩ = .ok (rs.get ⟨i, hr⟩) := by
  induction outs with
  | nil => exact ⟨[], rfl, rfl, fun i hi => absurd hi (Nat.not_lt_zero i)⟩
  | cons o rest ih =>
      have hok : o.isOk := h o (List.mem_cons_self o rest)
      match o with
      | .error e => simp [Except.isOk, Except.toBool] at hok
      | .ok v =>
          obtain ⟨rs, hrs, hlen, hidx⟩ := ih (fun o ho => h o (List.mem_cons_of_mem _ ho))
          refine ⟨v :: rs, ?_, by simp [hlen], ?_⟩
          · simp [resolveAll, hrs, Except.map]
          · intro i hi hr
            match i with
            | 0 => rfl
            | i + 1 =>
                exact hidx i (Nat.lt_of_succ_lt_succ hi) (Nat.lt_of_succ_lt_succ hr)

theorem resolveAll_error_of_first_error {ε α : Type} (outs : List (Except ε α))
    (k : Nat) (hk : k < outs.length) (e : ε)
    (herr : outs.get ⟨k, hk⟩ = .error e)
    (hpre : ∀ j (hj : j < outs.length), j < k → (outs.get ⟨j, hj⟩).isOk) :
    resolveAll outs = .error e := by
  induction outs generalizing k with
  | nil => exact absurd hk (Nat.not_lt_zero k)
  | cons o rest ih =>
      match k with
      | 0 =>
          simp only [List.get] at herr
          simp [herr, resolveAll]
      | k + 1 =>
          have hok0 : o.isOk := hpre 0 (Nat.succ_pos _) (Nat.succ_pos _)
          match o with
          | .error e0 => simp [Except.isOk, Except.toBool] at hok0
          | .ok v =>
              have := ih k (Nat.lt_of_succ_lt_succ hk) herr
                (fun j hj hjk =>
                  hpre (j + 1) (Nat.succ_lt_succ hj) (Nat.succ_lt_succ hjk))
              simp [resolveAll, this, Except.map]

theorem resolveAll_error_exists {ε α : Type} (outs : List (Except ε α))
    (k : Nat) (hk : k < outs.length) (e : ε)
    (herr : outs.get ⟨k, hk⟩ = .error e) :
    ∃ e', resolveAll outs = .error e' := by
  induction outs generalizing k with
  | nil => exact absurd hk (Nat.not_lt_zero k)
  | cons o rest ih =>
      match o with
      | .error e0 => exact ⟨e0, rfl⟩
      | .ok v =>
          match k with
          | 0 => simp at herr
          | k + 1 =>
              obtain ⟨e', he'⟩ := ih k (Nat.lt_of_succ_lt_succ hk) herr
              exact ⟨e', by simp [resolveAll, he', Except.map]⟩

theorem resolveAll_all_ok_of_ok {ε α : Type} (outs : List (Except ε α)) (rs : List α)
    (h : resolveAll outs = .ok rs) : ∀ o ∈ outs, o.isOk := by
  induction outs generalizing rs with
  | nil => simp
  | cons o rest ih =>
      match o with
      | .error e => simp [resolveAll] at h
      | .ok v =>
          intro o' ho'
          simp only [resolveAll, Except.map] at h
          match hrest : resolveAll rest with
          | .error e => rw [hrest] at h; simp at h
          | .ok vs =>
              rcases List.mem_cons.mp ho' with h1 | h2
              · subst h1; rfl
              · exact ih vs hrest o' h2

theorem resolveAll_map_ok {ε α β : Type} (g : β → α) (l : List β) :
    resolveAll (l.map (fun b => (Except.ok (g b) : Except ε α))) = .ok (l.map g) := by
  induction l with
  | nil => rfl
  | cons b rest ih => simp [resolveAll, ih, Except.map]

theorem submitOutcomes_length {π ε α : Type} (fs : List (π → Except ε α)) (ps : List π)
    (hlen : fs.length = ps.length) : (submitOutcomes fs ps).length = fs.length := by
  simp [submitOutcomes, List.length_zip, hlen]

theorem submitOutcomes_get {π ε α : Type} (fs : List (π → Except ε α)) (ps : List π)
    (i : Nat) (hi : i < (submitOutcomes fs ps).length)
    (hf : i < fs.length) (hp : i < ps.length) :
    (submitOutcomes fs ps).get ⟨i, hi⟩ = (fs.get ⟨i, hf⟩) (ps.get ⟨i, hp⟩) := by
  simp [submitOutcomes, List.getElem_zip]

/-- Submitting `len(ps)` copies of one callable `f`, paired indexwise with
the parameter list `ps`, produces the outcomes `ps.map f`. -/
theorem submitOutcomes_replicate {π ε α : Type} (f : π → Except ε α) (ps : List π) :
    submitOutcomes ((List.range ps.length).map (fun _ => f)) ps = ps.map f := by
  have hconst : ∀ (n : Nat), (List.range n).map (fun _ => f) = List.replicate n f := by
    intro n
    induction n with
    | zero => rfl
    | succ k ih => simp [List.range_succ, ih, List.replicate_succ']
  rw [hconst]
  induction ps with
  | nil => rfl
  | cons p rest ih =>
      simp only [submitOutcomes, List.zip] at ih ⊢
      simp only [List.length_cons, List.replicate_succ, List.zipWith_cons_cons, List.map_cons]
      rw [ih]

/-- `resolveAll` on an `ok` result forces every outcome and aligns them. -/
theorem resolveAll_ok_align {ε α : Type} (outs : List (Except ε α)) (rs : List α)
    (h : resolveAll outs = .ok rs) :
    rs.length = outs.length ∧
    ∀ i (hi : i < outs.length) (hr : i < rs.length),
      outs.get ⟨i, hi⟩ = .ok (rs.get ⟨i, hr⟩) := by
  obtain ⟨rs', hrs', hlen', hidx'⟩ :=
    resolveAll_ok_of_all_ok outs (resolveAll_all_ok_of_ok outs rs h)
  rw [h] at hrs'
  cases hrs'
  exact ⟨hlen', hidx'⟩

/-- The value computed by the collection phase does not depend on the
starting tick or on the completion ticks of the futures: it is exactly
`resolveAll` of the outcomes. -/
theorem collectResults_snd {ε α : Type} (units : List (Except ε α × Nat)) (t : Nat) :
    (collectResults units t).2 = resolveAll (units.map Prod.fst) := by
  induction units generalizing t with
  | nil => rfl
  | cons u rest ih =>
      obtain ⟨o, f⟩ := u
      match o with
      | .error e => rfl
      | .ok v => simp [collectResults, resolveAll, ih]

/-! ## The claims -/

/-- C1: for every batch of N work units (including N = 0), the engine
returns a list of length N whose i-th element is the result of applying
the i-th callable to the i-th parameter tuple, aligned to input order
regardless of the order in which units complete (the collection phase
yields the same list for every assignment of completion ticks). -/
theorem parralelizeCallables_ordered {π ε α : Type}
    (fs : List (π → Except ε α)) (ps : List π)
    (hlen : fs.length = ps.length)
    (hok : ∀ o ∈ submitOutcomes fs ps, o.isOk) :
    ∃ rs : List α,
      parralelizeCallables fs ps = .ok rs ∧
      rs.length = fs.length ∧
      (∀ i (hf : i < fs.length) (hp : i < ps.length) (hr : i < rs.length),
        (fs.get ⟨i, hf⟩) (ps.get ⟨i, hp⟩) = .ok (rs.get ⟨i, hr⟩)) ∧
      (∀ fin : List Nat, fs.length ≤ fin.length → ∀ t,
        (collectResults ((submitOutcomes fs ps).zip fin) t).2 = .ok rs) := by
  obtain ⟨rs, hrs, hlen', hidx⟩ := resolveAll_ok_of_all_ok _ hok
  have hsublen : (submitOutcomes fs ps).length = fs.length :=
    submitOutcomes_length fs ps hlen
  refine ⟨rs, hrs, by rw [hlen', hsublen], ?_, ?_⟩
  · intro i hf hp hr
    have hi : i < (submitOutcomes fs ps).length := by rw [hsublen]; exact hf
    have h := hidx i hi hr
    rw [submitOutcomes_get fs ps i hi hf hp] at h
    exact h
  · intro fin hfin t
    rw [collectResults_snd, List.map_fst_zip _ _ (by rw [hsublen]; exact hfin)]
    exact hrs

theorem parralelizeCallables_ordered_witness :
    ∃ rs : List Nat,
      parralelizeCallables [doubleCallable, doubleCallable, doubleCallable] [3, 4, 5]
        = .ok rs ∧ rs.length = 3 := by
  obtain ⟨rs, h1, h2, -⟩ := parralelizeCallables_ordered
    [doubleCallable, doubleCallable, doubleCallable] [3, 4, 5] (by decide) (by decide)
  exact ⟨rs, h1, h2⟩

/-- C2: a batch call is all-or-nothing: a returned list is complete (one
result per unit, every unit succeeded — so a batch containing a failing
unit never returns a partial list), and as soon as any unit's operation
raises, the engine raises to its caller. -/
theorem parralelizeCallables_all_or_nothing {π ε α : Type}
    (fs : List (π → Except ε α)) (ps : List π)
    (hlen : fs.length = ps.length) :
    (∀ rs : List α, parralelizeCallables fs ps = .ok rs →
        rs.length = fs.length ∧ ∀ o ∈ submitOutcomes fs ps, o.isOk) ∧
    (∀ k (hk : k < (submitOutcomes fs ps).length) (e : ε),
        (submitOutcomes fs ps).get ⟨k, hk⟩ = .error e →
        ∃ e', parralelizeCallables fs ps = .error e') := by
  constructor
  · intro rs hrs
    have h1 := resolveAll_length_ok _ rs hrs
    exact ⟨by rw [h1, submitOutcomes_length fs ps hlen],
           resolveAll_all_ok_of_ok _ rs hrs⟩
  · intro k hk e herr
    exact resolveAll_error_exists _ k hk e herr

theorem parralelizeCallables_all_or_nothing_witness :
    ∃ e', parralelizeCallables [doubleCallable, failCallable 9] [1, 2] = .error e' :=
  (parralelizeCallables_all_or_nothing [doubleCallable, failCallable 9] [1, 2]
    (by decide)).2 1 (by decide) 9 (by rfl)

/-- C10: when several units fail, the failure the engine surfaces is
deterministic: it is the exception of the lowest-index failing unit,
whatever the completion ticks of the units are, because results are
collected index by index from the start of the batch. -/
theorem first_error_surfaced {π ε α : Type}
    (fs : List (π → Except ε α)) (ps : List π)
    (k : Nat) (hk : k < (submitOutcomes fs ps).length) (e : ε)
    (herr : (submitOutcomes fs ps).get ⟨k, hk⟩ = .error e)
    (hpre : ∀ j (hj : j < (submitOutcomes fs ps).length), j < k →
        ((submitOutcomes fs ps).get ⟨j, hj⟩).isOk) :
    parralelizeCallables fs ps = .error e ∧
    ∀ (fin : List Nat) (t : Nat), (submitOutcomes fs ps).length ≤ fin.length →
      (collectResults ((submitOutcomes fs ps).zip fin) t).2 = .error e := by
  have h := resolveAll_error_of_first_error _ k hk e herr hpre
  refine ⟨h, ?_⟩
  intro fin t hfin
  rw [collectResults_snd, List.map_fst_zip _ _ hfin]
  exact h

theorem first_error_surfaced_witness :
    parralelizeCallables [doubleCallable, failCallable 3, failCallable 4] [0, 1, 2]
      = .error 3 :=
  (first_error_surfaced [doubleCallable, failCallable 3, failCallable 4] [0, 1, 2]
    1 (by decide) 3 (by rfl) (by decide)).1

/-- C3: `safe_get_company_by_urn` returns the wrapped client's
`get_company_by_id(urn)` value when the lookup succeeds, and `None`
whenever the lookup raises, never propagating the failure. -/
theorem safe_get_company_by_urn_suppresses {ε Url Comp Pers Urn SArg SRes : Type}
    (self : AsyncHarmonicWrapper ε Url Comp Pers Urn SArg SRes) (urn : Urn) :
    (∀ c, self.rawClient.get_company_by_id urn = .ok c →
        self.safe_get_company_by_urn urn = some c) ∧
    (∀ e, self.rawClient.get_company_by_id urn = .error e →
        self.safe_get_company_by_urn urn = none) := by
  constructor
  · intro c hc
    simp [AsyncHarmonicWrapper.safe_get_company_by_urn, hc]
  · intro e he
    simp [AsyncHarmonicWrapper.safe_get_company_by_urn, he]

theorem safe_get_company_by_urn_suppresses_witness :
    toyWrapper.safe_get_company_by_urn 2 = some 200 ∧
    toyWrapper.safe_get_company_by_urn 1 = none :=
  ⟨(safe_get_company_by_urn_suppresses toyWrapper 2).1 200 (by rfl),
   (safe_get_company_by_urn_suppresses toyWrapper 1).2 1 (by rfl)⟩

/-- C4: for every list of URNs, `batch_safe_get_company_by_urn` returns
(without any batch-level failure) exactly one slot per input URN, `None`
in the slots whose lookup raised and the real lookup value in the slots
whose lookup succeeded. -/
theorem batch_safe_get_company_by_urn_slots {ε Url Comp Pers Urn SArg SRes : Type}
    (self : AsyncHarmonicWrapper ε Url Comp Pers Urn SArg SRes)
    (listOfURNs : List Urn) :
    ∃ rs : List (Option Comp),
      self.batch_safe_get_company_by_urn listOfURNs = .ok rs ∧
      rs.length = listOfURNs.length ∧
      ∀ i (hi : i < listOfURNs.length) (hr : i < rs.length),
        rs.get ⟨i, hr⟩ = self.safe_get_company_by_urn (listOfURNs.get ⟨i, hi⟩) ∧
        (∀ c, self.rawClient.get_company_by_id (listOfURNs.get ⟨i, hi⟩) = .ok c →
            rs.get ⟨i, hr⟩ = some c) ∧
        (∀ e, self.rawClient.get_company_by_id (listOfURNs.get ⟨i, hi⟩) = .error e →
            rs.get ⟨i, hr⟩ = none) := by
  have houts : submitOutcomes
      ((List.range listOfURNs.length).map
        (fun _ => fun urn =>
          (Except.ok (self.safe_get_company_by_urn urn) : Except ε (Option Comp))))
      listOfURNs
      = listOfURNs.map (fun urn =>
          (Except.ok (self.safe_get_company_by_urn urn) : Except ε (Option Comp))) :=
    submitOutcomes_replicate _ listOfURNs
  refine ⟨listOfURNs.map (fun urn => self.safe_get_company_by_urn urn), ?_, by simp, ?_⟩
  · show parralelizeCallables _ listOfURNs = _
    simp only [parralelizeCallables]
    rw [houts]
    exact resolveAll_map_ok (fun urn => self.safe_get_company_by_urn urn) listOfURNs
  · intro i hi hr
    have hval : (listOfURNs.map (fun urn => self.safe_get_company_by_urn urn)).get ⟨i, hr⟩
        = self.safe_get_company_by_urn (listOfURNs.get ⟨i, hi⟩) := by
      simp [List.get_eq_getElem, List.getElem_map]
    refine ⟨hval, ?_, ?_⟩
    · intro c hc
      rw [hval]
      exact (safe_get_company_by_urn_suppresses self _).1 c hc
    · intro e he
      rw [hval]
      exact (safe_get_company_by_urn_suppresses self _).2 e he

theorem batch_safe_get_company_by_urn_slots_witness :
    ∃ rs : List (Option Nat),
      toyWrapper.batch_safe_get_company_by_urn [2, 3, 4] = .ok rs ∧
      rs.length = 3 :=
  (batch_safe_get_company_by_urn_slots toyWrapper [2, 3, 4]).elim
    (fun rs h => ⟨rs, h.1, h.2.1⟩)

/-- C5: every batched catalog operation is its singular counterpart
replicated per item and run through the engine: `enrich_companies`,
`enrich_people` and `batch_searches` each equal `resolveAll` of the
wrapped client's singular operation mapped over the input list, and on
success the i-th result is the wrapped client's `enrich_company` of the
i-th input, with the engine's ordered list returned unchanged. -/
theorem batched_ops_refine_singular {ε Url Comp Pers Urn SArg SRes : Type}
    (self : AsyncHarmonicWrapper ε Url Comp Pers Urn SArg SRes)
    (urls purls : List Url) (args : List SArg) :
    self.enrich_companies urls = resolveAll (urls.map self.rawClient.enrich_company) ∧
    self.enrich_people purls = resolveAll (purls.map self.rawClient.enrich_person) ∧
    self.batch_searches args = resolveAll (args.map self.rawClient.search) ∧
    (∀ rs : List Comp, self.enrich_companies urls = .ok rs →
      rs.length = urls.length ∧
      ∀ i (hi : i < urls.length) (hr : i < rs.length),
        self.rawClient.enrich_company (urls.get ⟨i, hi⟩) = .ok (rs.get ⟨i, hr⟩)) := by
  have h1 : self.enrich_companies urls
      = resolveAll (urls.map self.rawClient.enrich_company) := by
    show parralelizeCallables _ _ = _
    simp only [parralelizeCallables]
    rw [submitOutcomes_replicate]
  have h2 : self.enrich_people purls
      = resolveAll (purls.map self.rawClient.enrich_person) := by
    show parralelizeCallables _ _ = _
    simp only [parralelizeCallables]
    rw [submitOutcomes_replicate]
  have h3 : self.batch_searches args
      = resolveAll (args.map self.rawClient.search) := by
    show parralelizeCallables _ _ = _
    simp only [parralelizeCallables]
    rw [submitOutcomes_replicate]
  refine ⟨h1, h2, h3, ?_⟩
  intro rs hrs
  rw [h1] at hrs
  obtain ⟨hlen, hidx⟩ := resolveAll_ok_align _ rs hrs
  refine ⟨by simpa using hlen, ?_⟩
  intro i hi hr
  have hi' : i < (urls.map self.rawClient.enrich_company).length := by simpa using hi
  have h := hidx i hi' hr
  simpa [List.get_eq_getElem, List.getElem_map] using h

theorem batched_ops_refine_singular_witness :
    toyWrapper.enrich_companies [1, 2]
      = resolveAll ([1, 2].map toyWrapper.rawClient.enrich_company) ∧
    toyWrapper.enrich_people [3]
      = resolveAll ([3].map toyWrapper.rawClient.enrich_person) ∧
    toyWrapper.batch_searches [4]
      = resolveAll ([4].map toyWrapper.rawClient.search) :=
  ⟨(batched_ops_refine_singular toyWrapper [1, 2] [3] [4]).1,
   (batched_ops_refine_singular toyWrapper [1, 2] [3] [4]).2.1,
   (batched_ops_refine_singular toyWrapper [1, 2] [3] [4]).2.2.1⟩

/-- C6 is false of the code: with unit 0 failing at tick 0 and unit 1
succeeding at tick 5, the wait loop exits at tick 1 (one scan, one sleep)
and the collection phase raises unit 0's exception at tick 1, while unit 1
does not reach a terminal state until tick 5.  The code's own comment
("Waiting for all our future objects to resolve") states the claimed
behaviour, so this is a slip in the code: `fullyResolved = True` is
executed unconditionally after a single scan. -/
theorem engine_raises_before_all_terminal :
    engineTimed [((Except.error 7 : Except Nat Nat), 0), (Except.ok 1, 5)] 3
      = some (1, Except.error 7) ∧
    allTerminalTime [((Except.error 7 : Except Nat Nat), 0), (Except.ok 1, 5)] = 5 ∧
    (1 : Nat) < 5 :=
  ⟨rfl, rfl, by decide⟩

/-- C7 is false of the code: the `while not fullyResolved` loop performs
exactly one scan of the futures and then stops, for every done-trace —
`fullyResolved = True` (line 41) sits outside the `for` loop and runs
unconditionally — so the engine never rechecks the set of units, even when
a unit is unfinished at the first scan (concrete instance: a single
never-finished unit; the loop still exits after one scan and one sleep). -/
theorem waitLoop_single_scan :
    (∀ (done : Nat → List Bool) (fuel scans sleeps : Nat),
      waitLoopFuel done (fuel + 2) false scans sleeps
        = some (scans + 1, sleeps + forScanSleeps (done scans))) ∧
    waitLoopFuel (fun _ => [false]) 5 false 0 0 = some (1, 1) :=
  ⟨fun _ _ _ _ => rfl, rfl⟩

/-- The submission loop only appends to `futureObjs`; the caller's two
lists come out of it exactly as they went in. -/
theorem submitLoopFr_run {π ε α : Type} :
    ∀ (is : List Nat) (s : EngineFrame π ε α),
      (∀ i ∈ is, i < s.listOfCallables.length ∧ i < s.listOfParamTuples.length) →
      submitLoopFr s is = some ⟨s.listOfCallables, s.listOfParamTuples,
        s.futureObjs ++ outcomesAt s.listOfCallables s.listOfParamTuples is⟩
  | [], s, _ => by simp [submitLoopFr, outcomesAt]
  | i :: is, s, h => by
      obtain ⟨hf, hp⟩ := h i (List.mem_cons_self i is)
      have hgf := List.get?_eq_get hf
      have hgp := List.get?_eq_get hp
      have ih := submitLoopFr_run is
        { s with futureObjs := s.futureObjs ++
            [(s.listOfCallables.get ⟨i, hf⟩) (s.listOfParamTuples.get ⟨i, hp⟩)] }
        (fun j hj => h j (List.mem_cons_of_mem _ hj))
      simp only [submitLoopFr, hgf, hgp]
      rw [ih]
      simp [outcomesAt, List.filterMap_cons, List.getElem?_eq_getElem hf,
        List.getElem?_eq_getElem hp, List.get_eq_getElem, List.append_assoc]

/-- Over the index set the source uses — `range(len(listOfCallables))` —
the loop's outcomes are exactly `submitOutcomes`. -/
theorem outcomesAt_range {π ε α : Type} :
    ∀ (fs : List (π → Except ε α)) (ps : List π), fs.length = ps.length →
      outcomesAt fs ps (List.range fs.length) = submitOutcomes fs ps
  | [], [], _ => rfl
  | [], _ :: _, h => by simp at h
  | _ :: _, [], h => by simp at h
  | f :: fs, p :: ps, h => by
      have hlen : fs.length = ps.length := by simpa using h
      have ih := outcomesAt_range fs ps hlen
      show outcomesAt (f :: fs) (p :: ps) (List.range (fs.length + 1)) = _
      rw [List.range_succ_eq_map]
      show (f p) :: List.filterMap _ ((List.range fs.length).map Nat.succ) = _
      rw [List.filterMap_map]
      show (f p) :: outcomesAt fs ps (List.range fs.length) = _
      rw [ih]
      rfl

/-- C8: the engine does not mutate its inputs: running
`_parralelizeCallables` with every statement threaded through the heap
frame leaves the caller's `listOfCallables` and `listOfParamTuples`
exactly as they were, while producing the same result as the value-level
semantics.  (The batched catalog operations pass freshly built lists to
the engine and only read their own input list.) -/
theorem parralelizeCallables_no_mutation {π ε α : Type}
    (fs : List (π → Except ε α)) (ps : List π) (hlen : fs.length = ps.length) :
    parralelizeCallablesFr fs ps
      = some (⟨fs, ps, submitOutcomes fs ps⟩, parralelizeCallables fs ps) := by
  have h := submitLoopFr_run (List.range fs.length) ⟨fs, ps, []⟩
    (by intro i hi
        simp only [List.mem_range] at hi
        exact ⟨hi, hlen ▸ hi⟩)
  simp only [parralelizeCallablesFr]
  rw [h]
  simp only [Option.map_some', List.nil_append]
  rw [outcomesAt_range fs ps hlen]
  rfl

theorem parralelizeCallables_no_mutation_witness :
    parralelizeCallablesFr [doubleCallable] [21]
      = some (⟨[doubleCallable], [21], submitOutcomes [doubleCallable] [21]⟩,
              parralelizeCallables [doubleCallable] [21]) :=
  parralelizeCallables_no_mutation [doubleCallable] [21] (by decide)

/-! ## Lemmas about the pool model -/

theorem setTick_length : ∀ (l : List Nat) (i v : Nat), (setTick l i v).length = l.length
  | [], _, _ => rfl
  | _ :: _, 0, _ => rfl
  | a :: l, i + 1, v => by simp [setTick, setTick_length l i v]

theorem nthTick_le_setTick : ∀ (l : List Nat) (w v j : Nat), nthTick l w ≤ v →
    nthTick l j ≤ nthTick (setTick l w v) j
  | [], _, _, _, _ => Nat.le_refl _
  | _ :: _, 0, _, 0, h => h
  | _ :: _, 0, _, _ + 1, _ => Nat.le_refl _
  | _ :: _, _ + 1, _, 0, _ => Nat.le_refl _
  | _ :: l, w + 1, v, j + 1, h => nthTick_le_setTick l w v j h

theorem nthTick_setTick_self : ∀ (l : List Nat) (w v : Nat), w < l.length →
    nthTick (setTick l w v) w = v
  | [], _, _, h => absurd h (by simp)
  | _ :: _, 0, _, _ => rfl
  | _ :: l, w + 1, v, h => nthTick_setTick_self l w v (Nat.lt_of_succ_lt_succ h)

theorem minIdx_lt : ∀ (l : List Nat), 0 < l.length → minIdx l < l.length
  | [], h => absurd h (by simp)
  | [_], _ => Nat.zero_lt_one
  | a :: b :: rest, _ => by
      simp only [minIdx]
      split
      · simp
      · have := minIdx_lt (b :: rest) (by simp)
        simpa using Nat.succ_lt_succ this

theorem assignUnits_length : ∀ (avail ds : List Nat),
    (assignUnits avail ds).length = ds.length
  | _, [] => rfl
  | avail, d :: ds => by simp [assignUnits, assignUnits_length _ ds]

theorem assignUnits_finish : ∀ (avail ds : List Nat) (i : Nat)
    (hi : i < (assignUnits avail ds).length) (hd : i < ds.length),
    ((assignUnits avail ds).get ⟨i, hi⟩).2.2
      = ((assignUnits avail ds).get ⟨i, hi⟩).2.1 + ds.get ⟨i, hd⟩
  | _, _ :: _, 0, _, _ => rfl
  | avail, d :: ds, i + 1, hi, hd => by
      have hi' : i < (assignUnits (setTick avail (minIdx avail)
          (nthTick avail (minIdx avail) + d)) ds).length := by
        rw [assignUnits_length]
        exact Nat.lt_of_succ_lt_succ hd
      exact assignUnits_finish _ ds i hi' (Nat.lt_of_succ_lt_succ hd)

theorem assignUnits_start_ge : ∀ (ds avail : List Nat),
    ∀ e ∈ assignUnits avail ds, nthTick avail e.1 ≤ e.2.1
  | [], _, e, he => absurd he (List.not_mem_nil e)
  | d :: ds, avail, e, he => by
      simp only [assignUnits] at he
      rcases List.mem_cons.mp he with rfl | htail
      · exact Nat.le_refl _
      · have h1 := assignUnits_start_ge ds _ e htail
        have h2 := nthTick_le_setTick avail (minIdx avail)
          (nthTick avail (minIdx avail) + d) e.1 (Nat.le_add_right _ _)
        exact Nat.le_trans h2 h1

theorem assignUnits_worker_lt : ∀ (ds avail : List Nat), 0 < avail.length →
    ∀ e ∈ assignUnits avail ds, e.1 < avail.length
  | [], _, _, e, he => absurd he (List.not_mem_nil e)
  | d :: ds, avail, h, e, he => by
      simp only [assignUnits] at he
      rcases List.mem_cons.mp he with rfl | htail
      · exact minIdx_lt avail h
      · have := assignUnits_worker_lt ds _ (by rw [setTick_length]; exact h) e htail
        rwa [setTick_length] at this

/-- Units assigned to the same worker occupy disjoint, ordered time
intervals: a later unit on worker `w` starts no earlier than the finish of
any earlier unit on `w`. -/
theorem assignUnits_pairwise : ∀ (ds avail : List Nat), 0 < avail.length →
    List.Pairwise (fun a b : Nat × Nat × Nat => a.1 = b.1 → a.2.2 ≤ b.2.1)
      (assignUnits avail ds)
  | [], _, _ => List.Pairwise.nil
  | d :: ds, avail, h => by
      simp only [assignUnits]
      refine List.pairwise_cons.mpr ⟨?_,
        assignUnits_pairwise ds _ (by rw [setTick_length]; exact h)⟩
      intro e he heq
      have h1 := assignUnits_start_ge ds _ e he
      have h2 : nthTick (setTick avail (minIdx avail)
            (nthTick avail (minIdx avail) + d)) e.1
          = nthTick avail (minIdx avail) + d := by
        rw [← heq]
        exact nthTick_setTick_self avail (minIdx avail) _ (minIdx_lt avail h)
      exact h2 ▸ h1

theorem nodup_lt_length_le (l : List Nat) (n : Nat) (hnd : l.Nodup)
    (hlt : ∀ x ∈ l, x < n) : l.length ≤ n := by
  have h1 : l.toFinset.card = l.length := List.toFinset_card_of_nodup hnd
  have h2 : l.toFinset ⊆ Finset.range n := by
    intro x hx
    rw [Finset.mem_range]
    exact hlt x (List.mem_toFinset.mp hx)
  have h3 := Finset.card_le_card h2
  rw [h1, Finset.card_range] at h3
  exact h3

/-- At any tick, at most `numWorkers` scheduled units are running. -/
theorem poolSchedule_ceiling (numWorkers : Nat) (hW : 0 < numWorkers)
    (durations : List Nat) (t : Nat) :
    ((poolSchedule numWorkers durations).filter (runningAt t)).length ≤ numWorkers := by
  have havail : (List.replicate numWorkers 0).length = numWorkers :=
    List.length_replicate _ _
  have hpw : (poolSchedule numWorkers durations).Pairwise
      (fun a b => a.1 = b.1 → a.2.2 ≤ b.2.1) :=
    assignUnits_pairwise durations _ (by rw [havail]; exact hW)
  have hfil : ((poolSchedule numWorkers durations).filter (runningAt t)).Pairwise
      (fun a b => a.1 = b.1 → a.2.2 ≤ b.2.1) := hpw.filter (runningAt t)
  have hne : ((poolSchedule numWorkers durations).filter (runningAt t)).Pairwise
      (fun a b => a.1 ≠ b.1) := by
    refine List.Pairwise.imp_of_mem ?_ hfil
    intro a b ha hb hab heq
    have hra := of_decide_eq_true ((List.mem_filter.mp ha).2)
    have hrb := of_decide_eq_true ((List.mem_filter.mp hb).2)
    have hle := hab heq
    exact absurd (Nat.lt_of_lt_of_le hra.2 (Nat.le_trans hle hrb.1)) (Nat.lt_irrefl t)
  have hnd : (((poolSchedule numWorkers durations).filter (runningAt t)).map
      Prod.fst).Nodup := List.pairwise_map.mpr hne
  have hlt : ∀ x ∈ ((poolSchedule numWorkers durations).filter (runningAt t)).map
      Prod.fst, x < numWorkers := by
    intro x hx
    obtain ⟨e, he, rfl⟩ := List.mem_map.mp hx
    have hmem : e ∈ poolSchedule numWorkers durations := (List.mem_filter.mp he).1
    have := assignUnits_worker_lt durations (List.replicate numWorkers 0)
      (by rw [havail]; exact hW) e hmem
    rwa [havail] at this
  have hfin := nodup_lt_length_le _ numWorkers hnd hlt
  rwa [List.length_map] at hfin

/-- C9: a batch larger than the configured worker count still completes
correctly: every unit is scheduled (none dropped) and runs for its full
duration, at most `numWorkers` units run at any tick (excess units wait
for a worker), and the engine still produces the full ordered result list
with no error caused by the batch size. -/
theorem pool_ceiling_respected {ε α : Type}
    (numWorkers : Nat) (hW : 0 < numWorkers)
    (outs : List (Except ε α)) (durations : List Nat)
    (hlen : durations.length = outs.length)
    (hbig : numWorkers < durations.length)
    (hok : ∀ o ∈ outs, o.isOk) :
    (poolSchedule numWorkers durations).length = durations.length ∧
    (∀ i (hi : i < (poolSchedule numWorkers durations).length)
        (hd : i < durations.length),
      ((poolSchedule numWorkers durations).get ⟨i, hi⟩).2.2
        = ((poolSchedule numWorkers durations).get ⟨i, hi⟩).2.1
            + durations.get ⟨i, hd⟩) ∧
    (∀ t : Nat,
      ((poolSchedule numWorkers durations).filter (runningAt t)).length ≤ numWorkers) ∧
    (∃ rs, (collectResults (outs.zip ((poolSchedule numWorkers durations).map
        (fun e => e.2.2))) 0).2 = .ok rs ∧ rs.length = outs.length) := by
  refine ⟨assignUnits_length _ durations,
    fun i hi hd => assignUnits_finish _ durations i hi hd,
    fun t => poolSchedule_ceiling numWorkers hW durations t, ?_⟩
  obtain ⟨rs, hrs, hlen', -⟩ := resolveAll_ok_of_all_ok outs hok
  refine ⟨rs, ?_, hlen'⟩
  rw [collectResults_snd, List.map_fst_zip]
  · exact hrs
  · rw [List.length_map, poolSchedule, assignUnits_length, hlen]

theorem pool_ceiling_respected_witness :
    (poolSchedule 2 [3, 1, 2]).length = 3 ∧
    ∃ rs : List Nat,
      (collectResults ((([Except.ok 1, Except.ok 2, Except.ok 3] :
          List (Except Nat Nat)).zip ((poolSchedule 2 [3, 1, 2]).map
          (fun e => e.2.2))) ) 0).2 = .ok rs ∧ rs.length = 3 := by
  obtain ⟨h1, -, -, h4⟩ := pool_ceiling_respected 2 (by decide)
    ([Except.ok 1, Except.ok 2, Except.ok 3] : List (Except Nat Nat)) [3, 1, 2]
    (by decide) (by decide) (by decide)
  exact ⟨h1, h4⟩

end AsyncHarmon
